import Mathlib

/-!
Verification of the SintOlogy specification against the repository source.

The web explorer (`web/app.js`) and the text-analysis page
(`web/text-analysis.js`) are embedded shallowly below: DOM rendering is
dropped, but every data computation (filtering, search expansion, table
construction, Q&A context assembly, NER-to-ontology mapping) is translated
function by function from the JavaScript source.  JavaScript strings are
modelled by `String` viewed as its list of characters, JS `Set`/`Map`
objects by `Finset String` and function-valued maps, absent JS object
fields by `Option`, and JS falsiness of the empty string is modelled
explicitly where the source relies on it.

The ERD-to-ontology generation pipeline (`scripts/generate_ontology.py`)
is not part of the available source tree; the definitions in the
`Gen` namespace are modelled from the specification text instead, as
noted in their doc comments.
-/

namespace SintOlogy

/-! ## Character-level string helpers

Core `String` routines (`endsWith`, `splitOn`, `map`, `trim`, `take`) use
byte positions internally; the helpers below recompute them structurally
over `String.data` so that every definition evaluates inside the kernel. -/

def lcChar (c : Char) : Char :=
  if 'A' ≤ c ∧ c ≤ 'Z' then Char.ofNat (c.toNat + 32) else c

def ucChar (c : Char) : Char :=
  if 'a' ≤ c ∧ c ≤ 'z' then Char.ofNat (c.toNat - 32) else c

/-- Model of JS `String.prototype.toLowerCase` for ASCII data. -/
def strLower (s : String) : String := ⟨s.data.map lcChar⟩

/-- Model of JS `String.prototype.toUpperCase` for ASCII data. -/
def strUpper (s : String) : String := ⟨s.data.map ucChar⟩

/-- Model of JS `String.prototype.endsWith`. -/
def strEndsWith (s t : String) : Bool :=
  decide (s.data.drop (s.data.length - t.data.length) = t.data) &&
    decide (t.data.length ≤ s.data.length)

/-- Model of JS `String.prototype.includes` (substring containment). -/
def strContains (s t : String) : Bool :=
  (List.range (s.data.length + 1)).any
    (fun i => decide ((s.data.drop i).take t.data.length = t.data))

/-- Model of JS `substring(0, n)` / `slice(0, n)`: the first `n` characters. -/
def strTake (s : String) (n : Nat) : String := ⟨s.data.take n⟩

/-- Model of JS `String.prototype.trim`. -/
def jsTrim (s : String) : String :=
  ⟨((s.data.dropWhile Char.isWhitespace).reverse.dropWhile
      Char.isWhitespace).reverse⟩

def strIntercalate (sep : String) : List String → String
  | [] => ""
  | [x] => x
  | x :: y :: xs => x ++ sep ++ strIntercalate sep (y :: xs)

/-- JS `a || b` on strings: the empty string is falsy and falls through. -/
def orFalsy (a b : String) : String := if a = "" then b else a

/-! ## Data model

Shapes of the generated Schema Document (`ontology/ontology.json`) and of
the graph store (`data/graph.json`), as consumed by `web/app.js`. -/

structure OntClass where
  name : String
  label : Option String
deriving DecidableEq

structure OntProperty where
  name : String
  kind : String
  domain : List String
  range : Option String
deriving DecidableEq

structure Ontology where
  classes : List OntClass
  properties : List OntProperty
deriving DecidableEq

structure Node where
  id : String
  «class» : String
  properties : List (String × String)
deriving DecidableEq

structure Edge where
  id : String
  type : String
  «from» : String
  «to» : String
deriving DecidableEq

structure Graph where
  nodes : List Node
  edges : List Edge
deriving DecidableEq

/-- The mutable `state` object of `web/app.js`; `searchDepth = none`
models `Infinity`. -/
structure AppState where
  ontology : Ontology
  graph : Graph
  view : String
  filter : String
  focusId : Option String
  searchTerm : String
  searchDepth : Option Nat
  maxDepthSentinel : Nat
deriving DecidableEq

/-! ## Constants and fetch targets of `web/app.js` -/

def DATA_URL : String := "/data/graph.json"

def ONTOLOGY_URL : String := "/ontology/ontology.json"

/-- The URLs fetched by `init()` in `web/app.js` (its single `Promise.all`). -/
def initFetchUrls : List String := [ONTOLOGY_URL, DATA_URL]

/-- Path of the Turtle ontology document per the repository README; the
web app never requests it. -/
def turtleDocPath : String := "/ontology/sintology.ttl"

/-! ## Embedding of the `web/app.js` view-layer functions -/

/-- JS `node.properties[k]` coalesced with `""` (both `undefined` and the
falsy empty string behave identically in every use site below). -/
def propGet (props : List (String × String)) (k : String) : String :=
  (List.lookup k props).getD ""

/-- `nodeById` from `web/app.js`. -/
def nodeById (st : AppState) (id : String) : Option Node :=
  st.graph.nodes.find? (fun n => n.id == id)

/-- `nodeLabel` from `web/app.js`: a fixed priority chain of property
names, falling back to the first six characters of the node id. -/
def nodeLabel : Option Node → String
  | none => "Unknown"
  | some n =>
    orFalsy (propGet n.properties "name")
      (orFalsy (propGet n.properties "fullName")
        (orFalsy (propGet n.properties "handle")
          (orFalsy (propGet n.properties "actionType")
            (orFalsy (propGet n.properties "campaignType")
              (orFalsy (propGet n.properties "platform")
                (orFalsy (propGet n.properties "url") (strTake n.id 6)))))))

/-- One edge's contribution to `neighborMap` in `web/app.js`. -/
def neighborMapStep (m : String → Finset String) (e : Edge) :
    String → Finset String :=
  fun x =>
    if x = e.«from» then insert e.«to» (m x)
    else if x = e.«to» then insert e.«from» (m x)
    else m x

/-- `neighborMap` from `web/app.js`: an undirected adjacency map built by
one pass over the edges; ids without an entry behave as the empty set. -/
def neighborMap (g : Graph) : String → Finset String :=
  g.edges.foldl neighborMapStep (fun _ => ∅)

/-- The `for` loop of `expandFromIds`: one BFS wave per iteration,
stopping early once the frontier empties. -/
def expandLoop (g : Graph) : Nat → Finset String → Finset String → Finset String
  | 0, visited, _ => visited
  | Nat.succ k, visited, frontier =>
    let next := frontier.biUnion (fun id => neighborMap g id \ visited)
    if next = ∅ then visited else expandLoop g k (visited ∪ next) next

/-- `expandFromIds` from `web/app.js`; `depth = none` models `Infinity`,
capped at `edges.length` iterations exactly as in the source. -/
def expandFromIds (g : Graph) (ids : List String) (depth : Option Nat) :
    Finset String :=
  expandLoop g (depth.getD g.edges.length) ids.toFinset ids.toFinset

/-- `relatedNodeIds` from `web/app.js`. -/
def relatedNodeIds (st : AppState) : Option (Finset String) :=
  match st.focusId with
  | none => none
  | some fid => some (expandFromIds st.graph [fid] (some 1))

/-- `searchMatches` from `web/app.js`. -/
def searchMatches (st : AppState) : Option (List String) :=
  if st.searchTerm = "" then none
  else
    let term := strLower st.searchTerm
    some ((st.graph.nodes.filter (fun n =>
      (n.«class» :: n.id :: n.properties.map Prod.snd).any
        (fun v => strContains (strLower v) term))).map Node.id)

/-- `filteredNodes` from `web/app.js`: focus expansion, search expansion
(with the source's quirk that an empty match list imposes no constraint),
then the class filter. -/
def filteredNodes (st : AppState) : List Node :=
  let idSet1 : Option (Finset String) := relatedNodeIds st
  let idSet : Option (Finset String) :=
    match searchMatches st with
    | some ms =>
      if ms.isEmpty then idSet1
      else
        let expanded := expandFromIds st.graph ms st.searchDepth
        match idSet1 with
        | some s => some (s ∩ expanded)
        | none => some expanded
    | none => idSet1
  let ns1 :=
    match idSet with
    | some s => st.graph.nodes.filter (fun n => decide (n.id ∈ s))
    | none => st.graph.nodes
  if st.filter = "All" then ns1
  else ns1.filter (fun n => n.«class» == st.filter)

/-- `filteredEdges` from `web/app.js`. -/
def filteredEdges (st : AppState) (nodeIds : Finset String) : List Edge :=
  st.graph.edges.filter
    (fun e => decide (e.«from» ∈ nodeIds) && decide (e.«to» ∈ nodeIds))

/-- `applicableProperties` from `web/app.js`; a missing `domain` field is
modelled by the empty list, matching `prop.domain || []`. -/
def applicableProperties (o : Ontology) (className kind : String) :
    List OntProperty :=
  o.properties.filter (fun p =>
    p.kind == kind && (p.domain.contains className ||
      p.domain.contains "owl:Thing"))

/-- The data content of `buildFilter` from `web/app.js`: the dropdown's
`(value, text)` pairs, the fixed "All" option followed by one option per
schema class. -/
def buildFilterOptions (o : Ontology) : List (String × String) :=
  ("All", "All classes") ::
    o.classes.map (fun c => (c.name, orFalsy (c.label.getD "") c.name))

/-- One row of a rendered table in `renderTables` from `web/app.js`. -/
def rowCells (cols : List String) (n : Node) : List String :=
  cols.map (fun col =>
    if col = "id" then strTake n.id 8 else propGet n.properties col)

/-- The data content of one `renderTables` section: its class title and,
when the class has visible nodes, the column list and rows. -/
structure TableSection where
  title : String
  table : Option (List String × List (List String))
deriving DecidableEq

/-- The data content of `renderTables` from `web/app.js`. -/
def renderTables (st : AppState) : List TableSection :=
  ((st.ontology.classes.map OntClass.name).filter
      (fun n => st.filter == "All" || n == st.filter)).map (fun cn =>
    let nodes := (filteredNodes st).filter (fun n => n.«class» == cn)
    if nodes.isEmpty then ⟨cn, none⟩
    else
      let cols := "id" ::
        (applicableProperties st.ontology cn "datatype").map OntProperty.name
      ⟨cn, some (cols, nodes.map (rowCells cols))⟩)

/-- The `{ nodes, edges }` payload written by `exportGraphView`. -/
structure ExportPayload where
  nodes : List Node
  edges : List Edge
deriving DecidableEq

/-- `exportGraphView` from `web/app.js`; `none` models the early return
(alert) when the current view is empty. -/
def exportGraphView (st : AppState) : Option ExportPayload :=
  let nodes := filteredNodes st
  let nodeIds := (nodes.map Node.id).toFinset
  let edges := filteredEdges st nodeIds
  if nodes.isEmpty then none else some ⟨nodes, edges⟩

/-- The edge list drawn by `renderGraph` from `web/app.js`. -/
def renderGraphEdges (st : AppState) : List Edge :=
  filteredEdges st (((filteredNodes st).map Node.id).toFinset)

/-! ## The event handlers of `web/app.js` that update `state` -/

/-- The `classFilter` change handler. -/
def changeFilter (st : AppState) (v : String) : AppState :=
  { st with filter := v }

/-- The node/table-row click handler. -/
def clickNode (st : AppState) (id : String) : AppState :=
  { st with focusId := some id }

/-- The `searchInput` input handler (`event.target.value.trim()`). -/
def setSearchTerm (st : AppState) (raw : String) : AppState :=
  { st with searchTerm := jsTrim raw }

/-- The `depthRange` input handler. -/
def depthInputChange (st : AppState) (v : Nat) : AppState :=
  { st with searchDepth :=
      if st.maxDepthSentinel ≤ v then none else some v }

/-- `clearFilters` from `web/app.js`. -/
def clearFilters (st : AppState) : AppState :=
  { st with filter := "All", focusId := none, searchTerm := "",
            searchDepth := some 2 }

/-- `setView` from `web/app.js`. -/
def setView (st : AppState) (v : String) : AppState :=
  { st with view := v }

/-! ## Embedding of `buildContextFromGraph` from `web/app.js` -/

def MAX_CONTEXT_LENGTH : Nat := 2000

def noDataMsg : String :=
  "No data available. Please adjust filters or load data."

def truncSuffix : String := "\n...(truncated)"

/-- The `propText` expression inside `buildContextFromGraph`. -/
def propText (props : List (String × String)) : String :=
  strIntercalate ", " (props.map (fun kv => kv.1 ++ ": " ++ kv.2))

/-- One node's line in the Q&A context (skipped once over the limit). -/
def appendNodeLine (ctx : String) (n : Node) : String :=
  if ctx.length > MAX_CONTEXT_LENGTH then ctx
  else
    let pt := propText n.properties
    ctx ++ "- " ++ nodeLabel (some n) ++
      (if pt = "" then "" else " (" ++ pt ++ ")") ++ "\n"

/-- One class's block in the Q&A context; `nodesByClass` grouping is
realised by filtering the visible nodes on the class name. -/
def appendClassBlock (nodes : List Node) (ctx : String) (cn : String) :
    String :=
  if ctx.length > MAX_CONTEXT_LENGTH then ctx
  else
    ((nodes.filter (fun n => n.«class» == cn)).foldl appendNodeLine
      (ctx ++ cn ++ " entities:\n")) ++ "\n"

/-- One edge's line in the Q&A context's relationship section. -/
def appendEdgeLine (st : AppState) (ctx : String) (e : Edge) : String :=
  if ctx.length > MAX_CONTEXT_LENGTH then ctx
  else
    match nodeById st e.«from», nodeById st e.«to» with
    | some f, some t =>
        ctx ++ "- " ++ nodeLabel (some f) ++ " " ++ e.type ++ " " ++
          nodeLabel (some t) ++ "\n"
    | _, _ => ctx

/-- First-occurrence deduplication: the key order of a JS object built by
insertion, as used for `nodesByClass`. -/
def firstDedupAux : List String → List String → List String
  | [], _ => []
  | x :: xs, seen =>
    if x ∈ seen then firstDedupAux xs seen
    else x :: firstDedupAux xs (x :: seen)

def firstDedup (l : List String) : List String := firstDedupAux l []

/-- The Q&A context as assembled by `buildContextFromGraph` before the
final truncation step. -/
def assembleContext (st : AppState) (nodes : List Node) : String :=
  let header := "The following entities are in the current view:\n\n"
  let ctx1 := (firstDedup (nodes.map Node.«class»)).foldl
    (appendClassBlock nodes) header
  if ctx1.length < MAX_CONTEXT_LENGTH then
    let nodeIds := (nodes.map Node.id).toFinset
    let edges := filteredEdges st nodeIds
    if edges.isEmpty then ctx1
    else edges.foldl (appendEdgeLine st) (ctx1 ++ "Relationships:\n")
  else ctx1

/-- `buildContextFromGraph` from `web/app.js`: the `(context, wasTruncated)`
pair it returns. -/
def buildContextFromGraph (st : AppState) : String × Bool :=
  let nodes := filteredNodes st
  if nodes.isEmpty then (noDataMsg, false)
  else
    let ctx := assembleContext st nodes
    if ctx.length > MAX_CONTEXT_LENGTH then
      (strTake ctx MAX_CONTEXT_LENGTH ++ truncSuffix, true)
    else (ctx, false)

/-! ## Embedding of `mapEntitiesToOntology` from `web/text-analysis.js` -/

/-- The literal `mapping` object inside `mapEntitiesToOntology`. -/
def nerMapping (t : String) : Option String :=
  if t = "PER" then some "Person"
  else if t = "PERSON" then some "Person"
  else if t = "ORG" then some "Organisation"
  else if t = "ORGANISATION" then some "Organisation"
  else if t = "ORGANIZATION" then some "Organisation"
  else none

/-- JS `ontologyEntities[c].push(...items)` with creation on first use. -/
def addEntities (acc : List (String × List String)) (c : String)
    (items : List String) : List (String × List String) :=
  if acc.any (fun kv => kv.1 == c) then
    acc.map (fun kv => if kv.1 = c then (kv.1, kv.2 ++ items) else kv)
  else acc ++ [(c, items)]

/-- `mapEntitiesToOntology` from `web/text-analysis.js`: entity groups
keyed by NER tag are re-keyed through the fixed `mapping` table. -/
def mapEntitiesToOntology (entities : List (String × List String)) :
    List (String × List String) :=
  entities.foldl (fun acc kv =>
    match nerMapping (strUpper kv.1) with
    | some c => addEntities acc c kv.2
    | none => acc) []

/-! ## Specification-side graph reachability -/

/-- Two node ids are adjacent when some edge connects them, traversed in
either direction. -/
def Adj (g : Graph) (a b : String) : Prop :=
  ∃ e ∈ g.edges, (e.«from» = a ∧ e.«to» = b) ∨ (e.«to» = a ∧ e.«from» = b)

/-- A path of at most `n` edges connects `a` to `b` (seeds reach
themselves with zero edges). -/
inductive ReachLe (g : Graph) : Nat → String → String → Prop where
  | refl (n : Nat) (a : String) : ReachLe g n a a
  | tail {n : Nat} {a b c : String} :
      ReachLe g n a b → Adj g b c → ReachLe g (n + 1) a c

/-- One closure step: a set together with all neighbours of its members. -/
def iterStep (g : Graph) (S : Finset String) : Finset String :=
  S ∪ S.biUnion (fun a => neighborMap g a)

namespace Gen

/-!
## The ERD-to-ontology generation pipeline

Modelled from the spec: the generator entry point
(`scripts/generate_ontology.py`) is not present in the available source
tree, so the parser (spec section 4.1), the semantic model builder
(section 4.2), the emitters (sections 4.3 and 4.4) and the regeneration
I/O discipline (section 5) are translated from the specification text.
-/

def splitLinesAux : List Char → List Char → List String
  | [], cur => [⟨cur.reverse⟩]
  | c :: cs, cur =>
    if c = '\n' then (⟨cur.reverse⟩ : String) :: splitLinesAux cs []
    else splitLinesAux cs (c :: cur)

def splitLines (s : String) : List String := splitLinesAux s.data []

def splitWordsAux : List Char → List Char → List String
  | [], cur => if cur.isEmpty then [] else [⟨cur.reverse⟩]
  | c :: cs, cur =>
    if c = ' ' ∨ c = '\t' then
      if cur.isEmpty then splitWordsAux cs []
      else (⟨cur.reverse⟩ : String) :: splitWordsAux cs []
    else splitWordsAux cs (c :: cur)

def splitWords (s : String) : List String := splitWordsAux s.data []

def splitUSAux : List Char → List Char → List (List Char)
  | [], cur => [cur.reverse]
  | c :: cs, cur =>
    if c = '_' then cur.reverse :: splitUSAux cs []
    else splitUSAux cs (c :: cur)

/-- Underscore-segment split used by both naming transforms. -/
def splitUnderscore (s : String) : List String :=
  (splitUSAux s.data []).map (fun l => ⟨l⟩)

def capWord (w : String) : String :=
  match w.data with
  | [] => ""
  | c :: cs => ⟨ucChar c :: cs.map lcChar⟩

def strJoin (l : List String) : String := l.foldl (· ++ ·) ""

/-- Modelled from the spec: `SOCIAL_MEDIA_PROFILE ↦ SocialMediaProfile` —
underscore segments capitalized and concatenated. -/
def pascalCase (s : String) : String :=
  strJoin ((splitUnderscore s).map capWord)

/-- Modelled from the spec: `date_of_birth ↦ dateOfBirth`. -/
def camelCase (s : String) : String :=
  match splitUnderscore s with
  | [] => ""
  | x :: xs => (⟨x.data.map lcChar⟩ : String) ++ strJoin (xs.map capWord)

/-- Modelled from the spec: the human-readable class label. -/
def humanLabel (s : String) : String :=
  strIntercalate " " ((splitUnderscore s).map capWord)

structure FieldDecl where
  type : String
  name : String
deriving DecidableEq

structure EntityDecl where
  name : String
  fields : List FieldDecl
deriving DecidableEq

structure RelDecl where
  left : String
  card : String
  right : String
  verb : String
deriving DecidableEq

/-- The raw intermediate representation produced by the grammar parser. -/
structure IR where
  entities : List EntityDecl
  rels : List RelDecl
deriving DecidableEq

def isUpperChar (c : Char) : Bool := decide ('A' ≤ c ∧ c ≤ 'Z')

def isIdentTail (c : Char) : Bool :=
  isUpperChar c || decide ('0' ≤ c ∧ c ≤ '9') || decide (c = '_')

/-- Modelled from the spec: an entity identifier matches `[A-Z][A-Z0-9_]*`. -/
def isUpperIdent (s : String) : Bool :=
  match s.data with
  | [] => false
  | c :: cs => isUpperChar c && cs.all isIdentTail

def scalarTypes : List String := ["string", "date", "datetime"]

def cardLefts : List String := ["||", "|o", "\x7d|", "\x7do"]

def cardRights : List String := ["||", "o|", "|\x7b", "o\x7b"]

/-- Modelled from the spec: the fixed cardinality-token alphabet, one
multiplicity symbol per side around `--`. -/
def isCardToken (t : String) : Bool :=
  cardLefts.any (fun l => cardRights.any (fun r => t == l ++ "--" ++ r))

structure PState where
  entities : List EntityDecl
  rels : List RelDecl
  current : Option (String × List FieldDecl)
deriving DecidableEq

/-- Modelled from the spec: the single-pass line classifier of the
grammar parser — entity block open/close, field lines with the three
scalar types, relationship lines, everything else skipped. -/
def parseLineStep (ps : PState) (line : String) : Except String PState :=
  let w := splitWords line
  match ps.current with
  | some (name, fields) =>
    match w with
    | [x] =>
      if x = "\x7d" then .ok ⟨ps.entities ++ [⟨name, fields⟩], ps.rels, none⟩
      else .ok ps
    | [ty, fn] =>
      if scalarTypes.contains ty then
        .ok ⟨ps.entities, ps.rels, some (name, fields ++ [⟨ty, fn⟩])⟩
      else .error ("SyntaxError: unknown field type " ++ ty)
    | _ => .ok ps
  | none =>
    match w with
    | [n, br] =>
      if br = "\x7b" && isUpperIdent n then
        .ok ⟨ps.entities, ps.rels, some (n, [])⟩
      else .ok ps
    | [l, c, r, colon, v] =>
      if colon = ":" && isCardToken c && isUpperIdent l && isUpperIdent r then
        .ok ⟨ps.entities, ps.rels ++ [⟨l, c, r, v⟩], none⟩
      else .ok ps
    | _ => .ok ps

/-- Modelled from the spec: the grammar parser — order-preserving, one
pass, failing with a SyntaxError on bad field types or an unterminated
block. -/
def parseERD (src : String) : Except String IR :=
  match (splitLines src).foldlM parseLineStep ⟨[], [], none⟩ with
  | .error e => .error e
  | .ok ps =>
    match ps.current with
    | some (n, _) => .error ("SyntaxError: unterminated block " ++ n)
    | none => .ok ⟨ps.entities, ps.rels⟩

structure MClass where
  name : String
  label : String
deriving DecidableEq

/-- One property entry of the Ontology Model; `source` retains the raw
declared field name (or verb phrase), the key of the explicit merge rule. -/
structure PropEntry where
  name : String
  kind : String
  domain : List String
  range : String
  source : String
deriving DecidableEq

def buildClassesAux : List EntityDecl → List MClass →
    Except String (List MClass)
  | [], acc => .ok acc
  | e :: es, acc =>
    let n := pascalCase e.name
    if acc.any (fun c => c.name == n) then
      .error ("SemanticError: duplicate class name " ++ n)
    else buildClassesAux es (acc ++ [⟨n, humanLabel e.name⟩])

/-- Modelled from the spec (section 4.2 step 1): classes in declaration
order, PascalCase names, collision is a build error. -/
def buildClasses (entities : List EntityDecl) : Except String (List MClass) :=
  buildClassesAux entities []

/-- Modelled from the spec (section 4.2 step 2): a field ending in `_id`
is a foreign-key marker and contributes nothing; otherwise the field
becomes a datatype property, merged into an existing entry exactly when
source field name and declared type are identical (the domain set then
accumulates the class), and kept as a distinct entry otherwise. -/
def addField (cls : String) (acc : List PropEntry) (f : FieldDecl) :
    List PropEntry :=
  if strEndsWith f.name "_id" then acc
  else if acc.any (fun p =>
      p.kind == "datatype" && p.source == f.name && p.range == f.type) then
    acc.map (fun p =>
      if p.kind = "datatype" ∧ p.source = f.name ∧ p.range = f.type then
        { p with domain :=
            if cls ∈ p.domain then p.domain else p.domain ++ [cls] }
      else p)
  else acc ++ [⟨camelCase f.name, "datatype", [cls], f.type, f.name⟩]

def buildDatatypeProps (entities : List EntityDecl) : List PropEntry :=
  entities.foldl
    (fun acc e => e.fields.foldl (addField (pascalCase e.name)) acc) []

def buildObjectPropsAux (classNames : List String) :
    List RelDecl → List PropEntry → Except String (List PropEntry)
  | [], acc => .ok acc
  | r :: rs, acc =>
    let l := pascalCase r.left
    let ri := pascalCase r.right
    if ¬ classNames.contains l then
      .error ("SemanticError: undefined entity " ++ r.left)
    else if ¬ classNames.contains ri then
      .error ("SemanticError: undefined entity " ++ r.right)
    else
      let acc' :=
        if acc.any (fun p =>
            p.kind == "object" && p.source == r.verb && p.range == ri) then
          acc.map (fun p =>
            if p.kind = "object" ∧ p.source = r.verb ∧ p.range = ri then
              { p with domain :=
                  if l ∈ p.domain then p.domain else p.domain ++ [l] }
            else p)
        else acc ++ [⟨camelCase r.verb, "object", [l], ri, r.verb⟩]
      buildObjectPropsAux classNames rs acc'

/-- Modelled from the spec (section 4.2 step 3): object properties from
relationship declarations, endpoints resolved against the class list. -/
def buildObjectProps (classNames : List String) (rels : List RelDecl) :
    Except String (List PropEntry) :=
  buildObjectPropsAux classNames rels []

/-- The immutable Ontology Model. -/
structure Model where
  classes : List MClass
  properties : List PropEntry
deriving DecidableEq

/-- Modelled from the spec: the Semantic Model Builder. -/
def buildModel (ir : IR) : Except String Model := do
  let cs ← buildClasses ir.entities
  let dps := buildDatatypeProps ir.entities
  let ops ← buildObjectProps (cs.map MClass.name) ir.rels
  .ok ⟨cs, dps ++ ops⟩

/-- Modelled from the spec: the full generation pipeline up to the
in-memory model. -/
def generate (src : String) : Except String Model :=
  (parseERD src).bind buildModel

/-- Modelled from the spec (section 4.4): the runtime schema document. -/
def emitSchemaClass (c : MClass) : String :=
  "\x7b\"name\": \"" ++ c.name ++ "\", \"label\": \"" ++ c.label ++ "\"\x7d"

def emitSchemaProp (p : PropEntry) : String :=
  "\x7b\"name\": \"" ++ p.name ++ "\", \"kind\": \"" ++ p.kind ++
    "\", \"domain\": [" ++
    strIntercalate ", " (p.domain.map (fun d => "\"" ++ d ++ "\"")) ++
    "], \"range\": \"" ++ p.range ++ "\"\x7d"

def emitSchemaDoc (m : Model) : String :=
  "\x7b\"classes\": [" ++
    strIntercalate ", " (m.classes.map emitSchemaClass) ++
    "], \"properties\": [" ++
    strIntercalate ", " (m.properties.map emitSchemaProp) ++ "]\x7d"

/-- Modelled from the spec (section 4.3): the Turtle ontology document;
the universal-domain sentinel omits the domain restriction. -/
def emitOntologyProp (p : PropEntry) : String :=
  ":" ++ p.name ++ " a " ++
    (if p.kind = "object" then "owl:ObjectProperty" else "owl:DatatypeProperty") ++
    (if "owl:Thing" ∈ p.domain then ""
     else strJoin (p.domain.map (fun d => " ; rdfs:domain :" ++ d))) ++
    " ; rdfs:range " ++
    (if p.kind = "object" then ":" ++ p.range else "xsd:" ++ p.range) ++
    " .\n"

def emitOntologyDoc (m : Model) : String :=
  strJoin (m.classes.map (fun c => ":" ++ c.name ++ " a owl:Class .\n")) ++
    strJoin (m.properties.map emitOntologyProp)

/-- A file system snapshot: path to content, `none` when absent. -/
def GenFS := String → Option String

structure GenConfig where
  ontologyPath : String
  schemaPath : String

/-- Atomic replacement of one target path (write-then-rename): the old
content is swapped for the complete new content in a single step. -/
def stepWrite (fs : GenFS) (path content : String) : GenFS :=
  fun p => if p = path then some content else fs p

/-- Modelled from the spec (section 5): one regeneration run over a file
system snapshot, with an injectable failure point `failAt` (0 before the
source is read, 1 before the build, 2 before the ontology commit, 3 after
the ontology commit but before the schema commit).  All outputs are
computed before any commit; each commit is an atomic replace. -/
def runPipeline (cfg : GenConfig) (src : String) (failAt : Option Nat)
    (fs : GenFS) : GenFS × Option String :=
  if failAt = some 0 then (fs, some "I/O failure: unreadable source")
  else
    match parseERD src with
    | .error e => (fs, some e)
    | .ok ir =>
      if failAt = some 1 then (fs, some "injected failure during build")
      else
        match buildModel ir with
        | .error e => (fs, some e)
        | .ok m =>
          if failAt = some 2 then
            (fs, some "injected failure before any write")
          else
            let fs1 := stepWrite fs cfg.ontologyPath (emitOntologyDoc m)
            if failAt = some 3 then
              (fs1, some "injected failure after ontology write")
            else (stepWrite fs1 cfg.schemaPath (emitSchemaDoc m), none)

end Gen

/-! ## Concrete inputs used by the witness theorems -/

def wNodeA : Node := ⟨"a1", "Person", [("fullName", "Alex Parker")]⟩

def wNodeB : Node := ⟨"b1", "Organisation", [("name", "Acme")]⟩

def wEdgeAB : Edge := ⟨"e1", "memberOf", "a1", "b1"⟩

def wGraph : Graph := ⟨[wNodeA, wNodeB], [wEdgeAB]⟩

def wOntology : Ontology :=
  ⟨[⟨"Person", some "Person"⟩, ⟨"Organisation", some "Organisation"⟩],
   [⟨"fullName", "datatype", ["Person"], some "string"⟩,
    ⟨"name", "datatype", ["Organisation"], some "string"⟩,
    ⟨"memberOf", "object", ["Person"], some "Organisation"⟩]⟩

def wState : AppState := ⟨wOntology, wGraph, "graph", "All", none, "", some 2, 6⟩

def wStateEmpty : AppState :=
  ⟨wOntology, ⟨[], []⟩, "graph", "All", none, "", some 2, 6⟩

def wStatePerson : AppState := { wState with filter := "Person" }

def emptyOntology : Ontology := ⟨[], []⟩

def cexNode1 : Node := ⟨"abc123", "Person", [("fullName", "Alex Parker")]⟩

def cexNode2 : Node := ⟨"abc123", "Person", []⟩

def wERD : String :=
  "PERSON \x7b\n  string full_name\n  string organisation_id\n\x7d\n" ++
  "ORGANISATION \x7b\n  string name\n\x7d\n" ++
  "PERSON ||--o\x7b ORGANISATION : member_of\n"

def wGenFS : Gen.GenFS :=
  fun p => if p = "ontology/sintology.ttl" then some "old ttl"
           else if p = "ontology/ontology.json" then some "old schema"
           else none

def wGenConfig : Gen.GenConfig := ⟨"ontology/sintology.ttl", "ontology/ontology.json"⟩

/-- The parser output for `wERD`. -/
def wIR : Gen.IR :=
  ⟨[⟨"PERSON", [⟨"string", "full_name"⟩, ⟨"string", "organisation_id"⟩]⟩,
    ⟨"ORGANISATION", [⟨"string", "name"⟩]⟩],
   [⟨"PERSON", "||--o\x7b", "ORGANISATION", "member_of"⟩]⟩

/-- The Ontology Model built from `wERD`. -/
def wModel : Gen.Model :=
  ⟨[⟨"Person", "Person"⟩, ⟨"Organisation", "Organisation"⟩],
   [⟨"fullName", "datatype", ["Person"], "string", "full_name"⟩,
    ⟨"name", "datatype", ["Organisation"], "string", "name"⟩,
    ⟨"memberOf", "object", ["Person"], "Organisation", "member_of"⟩]⟩

/-- The fixed property-name priority list compiled into `nodeLabel`. -/
def labelKeys : List String :=
  ["name", "fullName", "handle", "actionType", "campaignType", "platform", "url"]

def wLbl1 : Node := ⟨"abc123", "Person", [("fullName", "Alex"), ("note", "x")]⟩

def wLbl2 : Node := ⟨"abc123", "Person", [("note", "y"), ("fullName", "Alex")]⟩

end SintOlogy

namespace SintOlogy

/-! ## General lemmas -/

theorem contains_iff (l : List String) (a : String) :
    l.contains a = true ↔ a ∈ l := by
  simp [List.contains_iff_exists_mem_beq, beq_iff_eq]

theorem strTake_length (s : String) (n : Nat) :
    (strTake s n).length = min n s.length := by
  show (s.data.take n).length = min n s.data.length
  exact List.length_take n s.data

theorem strLen_data (s : String) : s.length = s.data.length := rfl

/-! ## Claim C2 -/

/-- C2: `applicableProperties(C, k)` returns exactly the schema properties
whose kind is `k` and whose domain contains `C` or the universal sentinel
`owl:Thing`; and a rendered table's columns are exactly `id` followed by
the names of the datatype properties applicable to its class. -/
theorem applicableProperties_spec (o : Ontology) (c k : String)
    (p : OntProperty) :
    (p ∈ applicableProperties o c k ↔
      p ∈ o.properties ∧ p.kind = k ∧
        (c ∈ p.domain ∨ "owl:Thing" ∈ p.domain))
    ∧ (∀ st : AppState, ∀ sec ∈ renderTables st, ∀ tbl,
        sec.table = some tbl →
        tbl.1 = "id" ::
          (applicableProperties st.ontology sec.title "datatype").map
            OntProperty.name) := by
  constructor
  · simp only [applicableProperties, List.mem_filter, Bool.and_eq_true,
      Bool.or_eq_true, beq_iff_eq, contains_iff]
  · intro st sec hsec tbl htbl
    simp only [renderTables, List.mem_map] at hsec
    obtain ⟨cn, hcn, heq⟩ := hsec
    by_cases hemp :
        ((filteredNodes st).filter (fun n => n.«class» == cn)).isEmpty
    · rw [← heq] at htbl
      simp only [hemp, if_pos] at htbl
      exact absurd htbl (by simp)
    · rw [← heq] at htbl ⊢
      simp only [hemp, if_neg, Bool.not_eq_true] at htbl ⊢
      simp only [Option.some.injEq] at htbl
      rw [← htbl]

/-- Witness for C2 at the concrete schema `wOntology`: `fullName` is
applicable to `Person`, and the rendered `Person` table has columns
`[id, fullName]`. -/
theorem applicableProperties_spec_witness :
    (⟨"fullName", "datatype", ["Person"], some "string"⟩ : OntProperty) ∈
      applicableProperties wOntology "Person" "datatype"
    ∧ ["id", "fullName"] = "id" ::
        (applicableProperties wOntology "Person" "datatype").map
          OntProperty.name := by
  constructor
  · exact (applicableProperties_spec wOntology "Person" "datatype"
      ⟨"fullName", "datatype", ["Person"], some "string"⟩).1.mpr (by decide)
  · exact (applicableProperties_spec wOntology "Person" "datatype"
      ⟨"fullName", "datatype", ["Person"], some "string"⟩).2 wStatePerson
      ⟨"Person", some (["id", "fullName"], [["a1", "Alex Parker"]])⟩
      (by decide) (["id", "fullName"], [["a1", "Alex Parker"]]) rfl

/-! ## Claim C3 -/

/-- C3: the visualization layer fetches only the JSON schema document and
the graph store — never the Turtle ontology document — and every state
handler of the UI leaves the loaded ontology object unchanged. -/
theorem visualization_schema_only (st : AppState) (v : String) (n : Nat) :
    initFetchUrls = [ONTOLOGY_URL, DATA_URL]
    ∧ ONTOLOGY_URL = "/ontology/ontology.json"
    ∧ DATA_URL = "/data/graph.json"
    ∧ initFetchUrls.contains turtleDocPath = false
    ∧ initFetchUrls.all (fun u => ! strEndsWith u ".ttl") = true
    ∧ (changeFilter st v).ontology = st.ontology
    ∧ (clickNode st v).ontology = st.ontology
    ∧ (setSearchTerm st v).ontology = st.ontology
    ∧ (depthInputChange st n).ontology = st.ontology
    ∧ (clearFilters st).ontology = st.ontology
    ∧ (setView st v).ontology = st.ontology :=
  ⟨rfl, rfl, rfl, by decide, by decide, rfl, rfl, rfl, rfl, rfl, rfl⟩

/-! ## Claim C4 -/

theorem addField_fk (c : String) (acc : List Gen.PropEntry)
    (f : Gen.FieldDecl) (h : strEndsWith f.name "_id" = true) :
    Gen.addField c acc f = acc := by
  simp [Gen.addField, h]

theorem foldl_addField_filter (c : String) (fs : List Gen.FieldDecl)
    (acc : List Gen.PropEntry) :
    fs.foldl (Gen.addField c) acc =
      (fs.filter (fun f => ! strEndsWith f.name "_id")).foldl
        (Gen.addField c) acc := by
  induction fs generalizing acc with
  | nil => rfl
  | cons f fs ih =>
    by_cases h : strEndsWith f.name "_id" = true
    · simp only [List.foldl_cons, List.filter_cons, h, Bool.not_true,
        addField_fk c acc f h]
      exact ih acc
    · simp only [Bool.not_eq_true] at h
      simp only [List.foldl_cons, List.filter_cons, h, Bool.not_false,
        if_pos]
      exact ih _

theorem buildDT_strip (es : List Gen.EntityDecl) (acc : List Gen.PropEntry) :
    es.foldl (fun acc e =>
        e.fields.foldl (Gen.addField (Gen.pascalCase e.name)) acc) acc =
      (es.map (fun e => (⟨e.name,
          e.fields.filter (fun f => ! strEndsWith f.name "_id")⟩ :
            Gen.EntityDecl))).foldl (fun acc e =>
        e.fields.foldl (Gen.addField (Gen.pascalCase e.name)) acc) acc := by
  induction es generalizing acc with
  | nil => rfl
  | cons e es ih =>
    simp only [List.map_cons, List.foldl_cons]
    rw [← foldl_addField_filter]
    exact ih _

/-- C4: fields whose name ends in `_id` contribute nothing to the datatype
property set — deleting them from every entity leaves the generated
datatype properties unchanged — and in particular an entity whose only
field is `organisation_id : string` yields no datatype property at all. -/
theorem foreignKey_fields_excluded (entities : List Gen.EntityDecl) :
    Gen.buildDatatypeProps entities =
      Gen.buildDatatypeProps (entities.map (fun e =>
        ⟨e.name, e.fields.filter (fun f => ! strEndsWith f.name "_id")⟩))
    ∧ Gen.buildDatatypeProps
        [⟨"ORGANISATION_REF", [⟨"string", "organisation_id"⟩]⟩] = [] :=
  ⟨buildDT_strip entities [], by decide⟩

end SintOlogy

namespace SintOlogy

/-! ## Claim C7 -/

/-- C7: when two different classes each declare a field with the same
transformed name, the builder keeps two distinct property entries scoped
to their own domains, except when the raw field name and declared type
coincide, in which case a single entry accumulates both classes in its
domain set. -/
theorem property_merge_rule (c1 c2 n1 t1 n2 t2 : String)
    (hc : Gen.pascalCase c1 ≠ Gen.pascalCase c2)
    (hcam : Gen.camelCase n1 = Gen.camelCase n2)
    (h1 : strEndsWith n1 "_id" = false)
    (h2 : strEndsWith n2 "_id" = false) :
    Gen.buildDatatypeProps [⟨c1, [⟨t1, n1⟩]⟩, ⟨c2, [⟨t2, n2⟩]⟩] =
      if n1 = n2 ∧ t1 = t2 then
        [⟨Gen.camelCase n1, "datatype",
          [Gen.pascalCase c1, Gen.pascalCase c2], t1, n1⟩]
      else
        [⟨Gen.camelCase n1, "datatype", [Gen.pascalCase c1], t1, n1⟩,
         ⟨Gen.camelCase n2, "datatype", [Gen.pascalCase c2], t2, n2⟩] := by
  have e1 : Gen.addField (Gen.pascalCase c1) [] ⟨t1, n1⟩ =
      [⟨Gen.camelCase n1, "datatype", [Gen.pascalCase c1], t1, n1⟩] := by
    simp [Gen.addField, h1]
  by_cases hm : n1 = n2 ∧ t1 = t2
  · obtain ⟨hn, ht⟩ := hm
    subst hn
    subst ht
    simp only [Gen.buildDatatypeProps, List.foldl_cons, List.foldl_nil, e1]
    simp [Gen.addField, h2, Ne.symm hc]
  · rw [if_neg hm]
    have hany : ((n1 == n2) && (t1 == t2)) = false := by
      by_cases hn : n1 = n2
      · have ht : t1 ≠ t2 := fun h => hm ⟨hn, h⟩
        simp [hn, ht]
      · simp [hn]
    simp only [Gen.buildDatatypeProps, List.foldl_cons, List.foldl_nil, e1]
    have hm2 : ¬ ("datatype" = "datatype" ∧ n1 = n2 ∧ t1 = t2) := by
      intro h
      exact hm ⟨h.2.1, h.2.2⟩
    simp [Gen.addField, h2, hany, hm2]

/-- Witness for C7: `ORGANISATION` and `PERSON` both declaring
`string name` produce one merged `name` property carrying both domains. -/
theorem property_merge_rule_witness :
    Gen.buildDatatypeProps
      [⟨"ORGANISATION", [⟨"string", "name"⟩]⟩,
       ⟨"PERSON", [⟨"string", "name"⟩]⟩] =
      [⟨"name", "datatype", ["Organisation", "Person"], "string", "name"⟩] := by
  have h := property_merge_rule "ORGANISATION" "PERSON" "name" "string"
    "name" "string" (by decide) (by decide) (by decide) (by decide)
  rw [if_pos ⟨rfl, rfl⟩] at h
  exact h.trans (by decide)

/-! ## Claim C6 -/

/-- C6: a regeneration failure never touches the schema document (its old
content survives), a failure before the first commit touches no file at
all, and the schema path only ever holds either its previous content or a
complete emitted schema document — never a truncated intermediate. -/
theorem regeneration_atomic (cfg : Gen.GenConfig) (src : String)
    (failAt : Option Nat) (fs : Gen.GenFS)
    (hne : cfg.ontologyPath ≠ cfg.schemaPath) :
    ((Gen.runPipeline cfg src failAt fs).2.isSome = true →
      (Gen.runPipeline cfg src failAt fs).1 cfg.schemaPath =
        fs cfg.schemaPath)
    ∧ ((Gen.runPipeline cfg src failAt fs).2.isSome = true →
        failAt ≠ some 3 → (Gen.runPipeline cfg src failAt fs).1 = fs)
    ∧ ((Gen.runPipeline cfg src failAt fs).1 cfg.schemaPath =
          fs cfg.schemaPath ∨
        ∃ m, Gen.generate src = Except.ok m ∧
          (Gen.runPipeline cfg src failAt fs).1 cfg.schemaPath =
            some (Gen.emitSchemaDoc m)) := by
  simp only [Gen.runPipeline]
  by_cases h0 : failAt = some 0
  · simp [h0]
  · simp only [h0, if_false]
    cases hp : Gen.parseERD src with
    | error e => simp [hp]
    | ok ir =>
      simp only [hp]
      by_cases hf1 : failAt = some 1
      · simp [hf1]
      · simp only [hf1, if_false]
        cases hb : Gen.buildModel ir with
        | error e => simp [hb]
        | ok m =>
          simp only [hb]
          by_cases hf2 : failAt = some 2
          · simp [hf2]
          · simp only [hf2, if_false]
            by_cases hf3 : failAt = some 3
            · simp only [hf3, if_true]
              refine ⟨?_, ?_, ?_⟩
              · intro _
                simp [Gen.stepWrite, Ne.symm hne]
              · intro _ hcontra
                exact absurd rfl hcontra
              · left
                simp [Gen.stepWrite, Ne.symm hne]
            · simp only [hf3, if_false]
              refine ⟨?_, ?_, ?_⟩
              · intro hs
                simp at hs
              · intro hs
                simp at hs
              · right
                refine ⟨m, ?_, ?_⟩
                · show (Gen.parseERD src).bind Gen.buildModel = Except.ok m
                  rw [hp]
                  exact hb
                · simp [Gen.stepWrite]

/-- Witness for C6: with the example ERD, a simulated failure after the
ontology commit leaves the previously existing schema document content in
place. -/
theorem regeneration_atomic_witness :
    (Gen.runPipeline wGenConfig wERD (some 3) wGenFS).1
      "ontology/ontology.json" = some "old schema" := by
  have h := (regeneration_atomic wGenConfig wERD (some 3) wGenFS
    (by decide)).1 (by decide)
  exact h.trans (by decide)

/-! ## Claim C5 -/

theorem buildClassesAux_names (es : List Gen.EntityDecl) (acc cs : List Gen.MClass)
    (h : Gen.buildClassesAux es acc = Except.ok cs) :
    cs.map Gen.MClass.name =
      acc.map Gen.MClass.name ++ es.map (fun e => Gen.pascalCase e.name) := by
  induction es generalizing acc with
  | nil =>
    simp only [Gen.buildClassesAux, Except.ok.injEq] at h
    simp [← h]
  | cons e es ih =>
    by_cases hcol : acc.any (fun c => c.name == Gen.pascalCase e.name) = true
    · simp [Gen.buildClassesAux, hcol] at h
    · simp only [Bool.not_eq_true] at hcol
      simp only [Gen.buildClassesAux, hcol, Bool.false_eq_true, if_false] at h
      have := ih _ h
      simpa using this

/-- C5: generation is a pure function of the ERD source — two successful
runs on the same source give the same model — and the class list order is
the first-declaration order of the entities, not any hash order. -/
theorem generation_deterministic (src : String) (m1 m2 : Gen.Model)
    (h1 : Gen.generate src = Except.ok m1)
    (h2 : Gen.generate src = Except.ok m2) :
    m1 = m2
    ∧ (∀ ir m, Gen.buildModel ir = Except.ok m →
        m.classes.map Gen.MClass.name =
          ir.entities.map (fun e => Gen.pascalCase e.name)) := by
  constructor
  · exact Except.ok.inj (h1.symm.trans h2)
  · intro ir m hm
    cases hcs : Gen.buildClasses ir.entities with
    | error e => simp [Gen.buildModel, hcs, bind, Except.bind] at hm
    | ok cs =>
      cases hops : Gen.buildObjectProps (cs.map Gen.MClass.name) ir.rels with
      | error e => simp [Gen.buildModel, hcs, hops, bind, Except.bind] at hm
      | ok ops =>
        simp only [Gen.buildModel, hcs, hops, Except.bind, Except.ok.injEq,
          bind, pure] at hm
        have hcls : m.classes = cs := by
          rw [← hm]
        rw [hcls]
        simpa using buildClassesAux_names ir.entities [] cs hcs

/-- Witness for C5 on the example ERD: the generated class list follows
the entity declaration order `PERSON`, `ORGANISATION`. -/
theorem generation_deterministic_witness :
    wModel.classes.map Gen.MClass.name =
      wIR.entities.map (fun e => Gen.pascalCase e.name) :=
  (generation_deterministic wERD wModel wModel rfl rfl).2 wIR wModel rfl

end SintOlogy

namespace SintOlogy

/-! ## Claim C1 -/

theorem nerMapping_range (t c : String) (h : nerMapping t = some c) :
    c = "Person" ∨ c = "Organisation" := by
  unfold nerMapping at h
  split_ifs at h <;> simp_all

theorem addEntities_keys (acc : List (String × List String)) (c : String)
    (items : List String) (x : String)
    (hx : x ∈ (addEntities acc c items).map Prod.fst) :
    x ∈ acc.map Prod.fst ∨ x = c := by
  unfold addEntities at hx
  by_cases hany : acc.any (fun kv => kv.1 == c) = true
  · simp only [hany, if_true, List.map_map, List.mem_map] at hx
    obtain ⟨kv, hkv, hfst⟩ := hx
    left
    refine List.mem_map.mpr ⟨kv, hkv, ?_⟩
    by_cases hc : kv.1 = c <;> simp [hc] at hfst <;> simp [hfst, hc]
  · simp only [hany, Bool.false_eq_true, if_false, List.map_append,
      List.mem_append, List.map_cons, List.map_nil, List.mem_singleton] at hx
    exact hx

theorem mapEnt_keys_aux (l : List (String × List String))
    (acc : List (String × List String))
    (hacc : ∀ c ∈ acc.map Prod.fst, c = "Person" ∨ c = "Organisation") :
    ∀ c ∈ ((l.foldl (fun acc kv =>
        match nerMapping (strUpper kv.1) with
        | some c => addEntities acc c kv.2
        | none => acc) acc).map Prod.fst),
      c = "Person" ∨ c = "Organisation" := by
  induction l generalizing acc with
  | nil => exact hacc
  | cons kv l ih =>
    simp only [List.foldl_cons]
    cases hmap : nerMapping (strUpper kv.1) with
    | none => simpa [hmap] using ih acc hacc
    | some c =>
      simp only [hmap]
      refine ih _ ?_
      intro x hx
      rcases addEntities_keys acc c kv.2 x hx with h | h
      · exact hacc x h
      · rw [h]
        exact nerMapping_range _ _ hmap

/-- C1 counterexample: `nodeLabel` distinguishes two nodes that agree on
id, class, and every property named by the (empty) schema document —
because of the compiled-in key `fullName` — and `mapEntitiesToOntology`
emits the class name `Person` that no class of that schema document
carries; both functions therefore branch on compiled-in names rather
than operating purely off the schema's collections. -/
theorem hardcoded_names_cex :
    nodeLabel (some cexNode1) = "Alex Parker"
    ∧ nodeLabel (some cexNode2) = "abc123"
    ∧ cexNode1.id = cexNode2.id
    ∧ cexNode1.«class» = cexNode2.«class»
    ∧ emptyOntology.properties.all (fun p =>
        propGet cexNode1.properties p.name ==
          propGet cexNode2.properties p.name) = true
    ∧ (nodeLabel (some cexNode1) == nodeLabel (some cexNode2)) = false
    ∧ (mapEntitiesToOntology [("PER", ["Alex Parker"])]).map Prod.fst =
        ["Person"]
    ∧ (emptyOntology.classes.map OntClass.name).contains "Person" = false := by
  decide

/-- C1 as amended: the class filter options are exactly "All" plus the
schema document's classes and every table section is titled by a schema
class (those consumers are data-driven), but `nodeLabel` is determined by
the compiled-in property-name list `labelKeys` and `mapEntitiesToOntology`
only ever emits the compiled-in class names `Person` and `Organisation`,
independently of the loaded schema document. -/
theorem consumers_data_driven_amended (o : Ontology) (st : AppState)
    (v : String) (entities : List (String × List String)) (n1 n2 : Node) :
    (v ∈ (buildFilterOptions o).map Prod.fst ↔
      v = "All" ∨ v ∈ o.classes.map OntClass.name)
    ∧ (∀ sec ∈ renderTables st, sec.title ∈
        st.ontology.classes.map OntClass.name)
    ∧ (∀ c ∈ (mapEntitiesToOntology entities).map Prod.fst,
        c = "Person" ∨ c = "Organisation")
    ∧ (n1.id = n2.id →
        (∀ k ∈ labelKeys, propGet n1.properties k = propGet n2.properties k) →
        nodeLabel (some n1) = nodeLabel (some n2)) := by
  refine ⟨?_, ?_, ?_, ?_⟩
  · simp only [buildFilterOptions, List.map_cons, List.mem_cons,
      List.map_map, List.mem_map, Function.comp]
  · intro sec hsec
    simp only [renderTables, List.mem_map] at hsec
    obtain ⟨cn, hcn, heq⟩ := hsec
    have htitle : sec.title = cn := by
      rw [← heq]
      by_cases hemp :
          ((filteredNodes st).filter (fun n => n.«class» == cn)).isEmpty <;>
        simp [hemp]
    rw [htitle]
    exact List.mem_of_mem_filter hcn
  · exact mapEnt_keys_aux entities [] (by simp)
  · intro hid hk
    simp only [nodeLabel]
    rw [hk "name" (by decide), hk "fullName" (by decide),
      hk "handle" (by decide), hk "actionType" (by decide),
      hk "campaignType" (by decide), hk "platform" (by decide),
      hk "url" (by decide), hid]

/-- Witness for the amended C1 at concrete inputs. -/
theorem consumers_data_driven_amended_witness :
    "Person" ∈ (buildFilterOptions wOntology).map Prod.fst
    ∧ (∀ c ∈ (mapEntitiesToOntology
        [("PER", ["Alex"]), ("LOC", ["Paris"])]).map Prod.fst,
        c = "Person" ∨ c = "Organisation")
    ∧ nodeLabel (some wLbl1) = nodeLabel (some wLbl2) := by
  refine ⟨?_, ?_, ?_⟩
  · exact (consumers_data_driven_amended wOntology wState "Person" []
      wLbl1 wLbl2).1.mpr (Or.inr (by decide))
  · exact (consumers_data_driven_amended wOntology wState "Person"
      [("PER", ["Alex"]), ("LOC", ["Paris"])] wLbl1 wLbl2).2.2.1
  · exact (consumers_data_driven_amended wOntology wState "Person" []
      wLbl1 wLbl2).2.2.2 (by decide) (by decide)

end SintOlogy

namespace SintOlogy

/-! ## Claim C9 -/

theorem mem_filteredEdges (st : AppState) (ids : Finset String) (e : Edge) :
    e ∈ filteredEdges st ids ↔
      e ∈ st.graph.edges ∧ e.«from» ∈ ids ∧ e.«to» ∈ ids := by
  simp [filteredEdges, List.mem_filter, Bool.and_eq_true, decide_eq_true_eq,
    and_assoc]

/-- C9: `filteredEdges` keeps exactly the edges with both endpoints in the
given id set; with a non-"All" class filter every visible node carries the
selected class; and both the export payload and the drawn graph edges
connect only displayed nodes. -/
theorem filtered_view_closed (st : AppState) (ids : Finset String)
    (e : Edge) :
    (e ∈ filteredEdges st ids ↔
      e ∈ st.graph.edges ∧ e.«from» ∈ ids ∧ e.«to» ∈ ids)
    ∧ (st.filter ≠ "All" → ∀ n ∈ filteredNodes st, n.«class» = st.filter)
    ∧ (∀ pl, exportGraphView st = some pl → ∀ e2 ∈ pl.edges,
        e2.«from» ∈ pl.nodes.map Node.id ∧ e2.«to» ∈ pl.nodes.map Node.id)
    ∧ (∀ e2 ∈ renderGraphEdges st,
        e2.«from» ∈ (filteredNodes st).map Node.id ∧
        e2.«to» ∈ (filteredNodes st).map Node.id) := by
  refine ⟨mem_filteredEdges st ids e, ?_, ?_, ?_⟩
  · intro hf n hn
    simp only [filteredNodes] at hn
    rw [if_neg hf] at hn
    exact beq_iff_eq.mp (List.mem_filter.mp hn).2
  · intro pl hpl e2 he2
    by_cases hemp : (filteredNodes st).isEmpty
    · simp [exportGraphView, hemp] at hpl
    · simp only [exportGraphView, hemp, Bool.false_eq_true, if_false,
        Option.some.injEq] at hpl
      rw [← hpl] at he2 ⊢
      have h := (mem_filteredEdges st
        (((filteredNodes st).map Node.id).toFinset) e2).mp he2
      exact ⟨List.mem_toFinset.mp h.2.1, List.mem_toFinset.mp h.2.2⟩
  · intro e2 he2
    have h := (mem_filteredEdges st
      (((filteredNodes st).map Node.id).toFinset) e2).mp he2
    exact ⟨List.mem_toFinset.mp h.2.1, List.mem_toFinset.mp h.2.2⟩

/-- Witness for C9 at the concrete example graph. -/
theorem filtered_view_closed_witness :
    wEdgeAB ∈ filteredEdges wState ({"a1", "b1"} : Finset String)
    ∧ wNodeA.«class» = "Person"
    ∧ wEdgeAB.«from» ∈ ([wNodeA, wNodeB].map Node.id) := by
  refine ⟨?_, ?_, ?_⟩
  · exact (filtered_view_closed wState {"a1", "b1"} wEdgeAB).1.mpr (by decide)
  · exact (filtered_view_closed wStatePerson {"a1", "b1"} wEdgeAB).2.1
      (by decide) wNodeA (by decide)
  · exact ((filtered_view_closed wState {"a1", "b1"} wEdgeAB).2.2.1
      ⟨[wNodeA, wNodeB], [wEdgeAB]⟩ (by decide) wEdgeAB (by decide)).1

/-! ## Claim C8 -/

/-- C8: the Q&A context returned by `buildContextFromGraph` never exceeds
2000 characters plus the fixed truncation suffix, the `wasTruncated` flag
is set exactly when the assembled context exceeded 2000 characters and
was cut, and an empty filtered view yields the fixed no-data message with
the flag clear. -/
theorem qa_context_bounded (st : AppState) :
    (buildContextFromGraph st).1.length ≤
      MAX_CONTEXT_LENGTH + truncSuffix.length
    ∧ ((buildContextFromGraph st).2 = true ↔
        (¬ (filteredNodes st).isEmpty = true ∧
          (assembleContext st (filteredNodes st)).length >
            MAX_CONTEXT_LENGTH))
    ∧ ((filteredNodes st).isEmpty = true →
        buildContextFromGraph st = (noDataMsg, false)) := by
  by_cases hemp : (filteredNodes st).isEmpty = true
  · refine ⟨?_, ?_, fun _ => ?_⟩
    · simp only [buildContextFromGraph, hemp, if_true]
      decide
    · simp [buildContextFromGraph, hemp]
    · simp [buildContextFromGraph, hemp]
  · by_cases hlen : (assembleContext st (filteredNodes st)).length >
        MAX_CONTEXT_LENGTH
    · refine ⟨?_, ?_, fun h => absurd h hemp⟩
      · simp only [buildContextFromGraph, hemp, Bool.false_eq_true, if_false,
          if_pos hlen]
        rw [String.length_append, strTake_length,
          Nat.min_eq_left (Nat.le_of_lt hlen)]
      · simp only [buildContextFromGraph, hemp, Bool.false_eq_true, if_false,
          if_pos hlen]
        simp [hemp, hlen]
    · refine ⟨?_, ?_, fun h => absurd h hemp⟩
      · simp only [buildContextFromGraph, hemp, Bool.false_eq_true, if_false,
          if_neg hlen]
        exact Nat.le_trans (Nat.le_of_not_lt hlen) (Nat.le_add_right _ _)
      · simp only [buildContextFromGraph, hemp, Bool.false_eq_true, if_false,
          if_neg hlen]
        simp [hlen]

/-- Witness for C8: on an empty graph the fixed no-data message is
returned untruncated. -/
theorem qa_context_bounded_witness :
    buildContextFromGraph wStateEmpty = (noDataMsg, false) :=
  (qa_context_bounded wStateEmpty).2.2 (by decide)

end SintOlogy

namespace SintOlogy

/-! ## Claim C10: supporting lemmas -/

theorem mem_neighborMapStep (m : String → Finset String) (e : Edge)
    (a b : String) :
    b ∈ neighborMapStep m e a ↔
      b ∈ m a ∨ (e.«from» = a ∧ e.«to» = b) ∨ (e.«to» = a ∧ e.«from» = b) := by
  unfold neighborMapStep
  by_cases h1 : a = e.«from»
  · rw [if_pos h1]
    simp only [Finset.mem_insert]
    constructor
    · rintro (rfl | h)
      · exact Or.inr (Or.inl ⟨h1.symm, rfl⟩)
      · exact Or.inl h
    · rintro (h | ⟨hf, rfl⟩ | ⟨ht, hb⟩)
      · exact Or.inr h
      · exact Or.inl rfl
      · refine Or.inl ?_
        rw [← hb]
        exact (ht.trans h1).symm
  · rw [if_neg h1]
    by_cases h2 : a = e.«to»
    · rw [if_pos h2]
      simp only [Finset.mem_insert]
      constructor
      · rintro (rfl | h)
        · exact Or.inr (Or.inr ⟨h2.symm, rfl⟩)
        · exact Or.inl h
      · rintro (h | ⟨hf, hb⟩ | ⟨ht, rfl⟩)
        · exact Or.inr h
        · exact absurd hf.symm h1
        · exact Or.inl rfl
    · rw [if_neg h2]
      constructor
      · exact Or.inl
      · rintro (h | ⟨h3, _⟩ | ⟨h3, _⟩)
        · exact h
        · exact absurd h3.symm h1
        · exact absurd h3.symm h2

theorem mem_neighborMap_foldl (es : List Edge)
    (m : String → Finset String) (a b : String) :
    b ∈ (es.foldl neighborMapStep m) a ↔
      b ∈ m a ∨ ∃ e ∈ es,
        (e.«from» = a ∧ e.«to» = b) ∨ (e.«to» = a ∧ e.«from» = b) := by
  induction es generalizing m with
  | nil => simp
  | cons e es ih =>
    simp only [List.foldl_cons, ih, mem_neighborMapStep, List.mem_cons]
    constructor
    · rintro ((h | h) | ⟨e2, he2, h⟩)
      · exact Or.inl h
      · exact Or.inr ⟨e, Or.inl rfl, h⟩
      · exact Or.inr ⟨e2, Or.inr he2, h⟩
    · rintro (h | ⟨e2, (rfl | he2), h⟩)
      · exact Or.inl (Or.inl h)
      · exact Or.inl (Or.inr h)
      · exact Or.inr ⟨e2, he2, h⟩

theorem mem_neighborMap (g : Graph) (a b : String) :
    b ∈ neighborMap g a ↔ Adj g a b := by
  unfold neighborMap Adj
  rw [mem_neighborMap_foldl]
  simp

theorem iterStep_subset (g : Graph) (S : Finset String) : S ⊆ iterStep g S :=
  Finset.subset_union_left

theorem mem_iterStep (g : Graph) (S : Finset String) (b : String) :
    b ∈ iterStep g S ↔ b ∈ S ∨ ∃ a ∈ S, Adj g a b := by
  simp [iterStep, Finset.mem_union, Finset.mem_biUnion, mem_neighborMap]

theorem expandLoop_eq (g : Graph) (m : Nat) (V F : Finset String)
    (hFV : F ⊆ V)
    (hcov : iterStep g V ⊆ V ∪ F.biUnion (fun a => neighborMap g a)) :
    expandLoop g m V F = (iterStep g)^[m] V := by
  induction m generalizing V F with
  | zero => rfl
  | succ k ih =>
    simp only [expandLoop]
    by_cases hempty : F.biUnion (fun id => neighborMap g id \ V) = ∅
    · rw [if_pos hempty]
      have hfix : iterStep g V = V := by
        apply Finset.Subset.antisymm
        · intro x hx
          rcases Finset.mem_union.mp (hcov hx) with hxV | hxB
          · exact hxV
          · by_cases hxV : x ∈ V
            · exact hxV
            · exfalso
              have hmem : x ∈ F.biUnion (fun id => neighborMap g id \ V) := by
                simp only [Finset.mem_biUnion] at hxB ⊢
                obtain ⟨a, ha, hx2⟩ := hxB
                exact ⟨a, ha, Finset.mem_sdiff.mpr ⟨hx2, hxV⟩⟩
              rw [hempty] at hmem
              exact absurd hmem (Finset.not_mem_empty x)
        · exact iterStep_subset g V
      exact (Function.iterate_fixed hfix (k + 1)).symm
    · rw [if_neg hempty]
      have hVnext : V ∪ F.biUnion (fun id => neighborMap g id \ V) =
          iterStep g V := by
        apply Finset.Subset.antisymm
        · refine Finset.union_subset (iterStep_subset g V) ?_
          intro x hx
          simp only [Finset.mem_biUnion, Finset.mem_sdiff] at hx
          obtain ⟨a, ha, hx2, _⟩ := hx
          exact Finset.mem_union_right _
            (Finset.mem_biUnion.mpr ⟨a, hFV ha, hx2⟩)
        · intro x hx
          rcases Finset.mem_union.mp (hcov hx) with h | h
          · exact Finset.mem_union_left _ h
          · by_cases hxV : x ∈ V
            · exact Finset.mem_union_left _ hxV
            · refine Finset.mem_union_right _ ?_
              simp only [Finset.mem_biUnion] at h ⊢
              obtain ⟨a, ha, h2⟩ := h
              exact ⟨a, ha, Finset.mem_sdiff.mpr ⟨h2, hxV⟩⟩
      have hsub : F.biUnion (fun id => neighborMap g id \ V) ⊆
          V ∪ F.biUnion (fun id => neighborMap g id \ V) :=
        Finset.subset_union_right
      have hcov2 : iterStep g (V ∪ F.biUnion (fun id => neighborMap g id \ V)) ⊆
          (V ∪ F.biUnion (fun id => neighborMap g id \ V)) ∪
            (F.biUnion (fun id => neighborMap g id \ V)).biUnion
              (fun a => neighborMap g a) := by
        intro x hx
        rcases Finset.mem_union.mp hx with h | h
        · exact Finset.mem_union_left _ h
        · simp only [Finset.mem_biUnion] at h
          obtain ⟨a, ha, h2⟩ := h
          rcases Finset.mem_union.mp ha with haV | haN
          · have hx2 : x ∈ iterStep g V :=
              Finset.mem_union_right _ (Finset.mem_biUnion.mpr ⟨a, haV, h2⟩)
            rcases Finset.mem_union.mp (hcov hx2) with h3 | h3
            · exact Finset.mem_union_left _ (Finset.mem_union_left _ h3)
            · by_cases hxV : x ∈ V
              · exact Finset.mem_union_left _ (Finset.mem_union_left _ hxV)
              · refine Finset.mem_union_left _ (Finset.mem_union_right _ ?_)
                simp only [Finset.mem_biUnion] at h3 ⊢
                obtain ⟨a2, ha2, h4⟩ := h3
                exact ⟨a2, ha2, Finset.mem_sdiff.mpr ⟨h4, hxV⟩⟩
          · exact Finset.mem_union_right _
              (Finset.mem_biUnion.mpr ⟨a, haN, h2⟩)
      rw [ih _ _ hsub hcov2, hVnext]
      exact (Function.iterate_succ_apply (iterStep g) k V).symm

theorem reachLe_succ (g : Graph) {n : Nat} {a b : String}
    (h : ReachLe g n a b) : ReachLe g (n + 1) a b := by
  induction h with
  | refl n a => exact .refl (n + 1) a
  | tail h adj ih => exact .tail ih adj

theorem mem_iterate_iff (g : Graph) (S : Finset String) (k : Nat)
    (b : String) :
    b ∈ (iterStep g)^[k] S ↔ ∃ a ∈ S, ReachLe g k a b := by
  induction k generalizing b with
  | zero =>
    simp only [Function.iterate_zero, id_eq]
    constructor
    · intro hb
      exact ⟨b, hb, .refl 0 b⟩
    · rintro ⟨a, ha, hr⟩
      cases hr with
      | refl => exact ha
  | succ k ih =>
    rw [Function.iterate_succ_apply', mem_iterStep]
    constructor
    · rintro (h | ⟨c, hc, hadj⟩)
      · obtain ⟨a, ha, hr⟩ := (ih b).mp h
        exact ⟨a, ha, reachLe_succ g hr⟩
      · obtain ⟨a, ha, hr⟩ := (ih c).mp hc
        exact ⟨a, ha, .tail hr hadj⟩
    · rintro ⟨a, ha, hr⟩
      cases hr with
      | refl => exact Or.inl ((ih b).mpr ⟨b, ha, .refl k b⟩)
      | tail hr2 hadj =>
        rename_i c
        exact Or.inr ⟨c, (ih c).mpr ⟨a, ha, hr2⟩, hadj⟩

end SintOlogy

namespace SintOlogy

theorem iterate_subset_succ (g : Graph) (S : Finset String) (k : Nat) :
    (iterStep g)^[k] S ⊆ (iterStep g)^[k + 1] S := by
  rw [Function.iterate_succ_apply']
  exact iterStep_subset g _

theorem iterate_subset_of_le (g : Graph) (S : Finset String) {k m : Nat}
    (h : k ≤ m) : (iterStep g)^[k] S ⊆ (iterStep g)^[m] S := by
  obtain ⟨d, rfl⟩ := Nat.exists_eq_add_of_le h
  induction d with
  | zero => exact Finset.Subset.refl _
  | succ d ih =>
    show (iterStep g)^[k] S ⊆ (iterStep g)^[(k + d) + 1] S
    exact (ih (Nat.le_add_right k d)).trans (iterate_subset_succ g S (k + d))

/-- Every vertex that BFS adds beyond the seed set can be charged to an
edge whose other endpoint was reached strictly earlier; this pins the
number of new vertices at `edges.length`. -/
theorem iterate_new_card_le (g : Graph) (S : Finset String) (m : Nat) :
    (((iterStep g)^[m] S) \ S).card ≤ g.edges.length := by
  classical
  have hex : ∀ v ∈ ((iterStep g)^[m] S) \ S, ∃ p : Nat × Edge,
      p.2 ∈ g.edges ∧
      ((p.2.«from» = v ∧ p.2.«to» ∈ (iterStep g)^[p.1] S) ∨
        (p.2.«to» = v ∧ p.2.«from» ∈ (iterStep g)^[p.1] S)) ∧
      v ∉ (iterStep g)^[p.1] S := by
    intro v hv
    obtain ⟨hvm, hvS⟩ := Finset.mem_sdiff.mp hv
    have hexk : ∃ k, v ∈ (iterStep g)^[k] S := ⟨m, hvm⟩
    have hk := Nat.find_spec hexk
    have hk0 : Nat.find hexk ≠ 0 := by
      intro h0
      rw [h0] at hk
      simp only [Function.iterate_zero, id_eq] at hk
      exact hvS hk
    have hkpred : v ∉ (iterStep g)^[Nat.find hexk - 1] S := by
      intro hmem
      exact Nat.find_min hexk (by omega) hmem
    have hsucc : (iterStep g)^[Nat.find hexk] S =
        iterStep g ((iterStep g)^[Nat.find hexk - 1] S) := by
      conv_lhs => rw [show Nat.find hexk = (Nat.find hexk - 1) + 1 by omega]
      rw [Function.iterate_succ_apply']
    rw [hsucc] at hk
    rcases (mem_iterStep g _ v).mp hk with h | ⟨c, hc, hadj⟩
    · exact absurd h hkpred
    · obtain ⟨e, he, hcase⟩ := hadj
      rcases hcase with ⟨h1, h2⟩ | ⟨h1, h2⟩
      · exact ⟨(Nat.find hexk - 1, e), he,
          Or.inr ⟨h2, by rw [h1]; exact hc⟩, hkpred⟩
      · exact ⟨(Nat.find hexk - 1, e), he,
          Or.inl ⟨h2, by rw [h1]; exact hc⟩, hkpred⟩
  choose f hf1 hf2 hf3 using hex
  have hcard : (((iterStep g)^[m] S) \ S).card ≤ (g.edges.toFinset).card := by
    apply Finset.card_le_card_of_injOn
      (fun v => if h : v ∈ ((iterStep g)^[m] S) \ S then (f v h).2
        else ⟨"", "", "", ""⟩)
    · intro v hv
      rw [dif_pos hv]
      exact List.mem_toFinset.mpr (hf1 v hv)
    · intro v hv w hw heq
      by_contra hne
      have hv2 : v ∈ ((iterStep g)^[m] S) \ S := Finset.mem_coe.mp hv
      have hw2 : w ∈ ((iterStep g)^[m] S) \ S := Finset.mem_coe.mp hw
      simp only [] at heq
      rw [dif_pos hv2, dif_pos hw2] at heq
      have h2v := hf2 v hv2
      have h3v := hf3 v hv2
      have h2w := hf2 w hw2
      have h3w := hf3 w hw2
      rw [← heq] at h2w
      rcases h2v with ⟨hav, hbv⟩ | ⟨hav, hbv⟩ <;>
        rcases h2w with ⟨haw, hbw⟩ | ⟨haw, hbw⟩
      · exact hne (hav.symm.trans haw)
      · -- (f v _).2.from = v, to ∈ layer v; .to = w, from ∈ layer w
        have hwv : w ∈ (iterStep g)^[(f v hv2).1] S := haw ▸ hbv
        have hvw : v ∈ (iterStep g)^[(f w hw2).1] S := hav ▸ hbw
        rcases Nat.le_total (f v hv2).1 (f w hw2).1 with hle | hle
        · exact h3w (iterate_subset_of_le g S hle hwv)
        · exact h3v (iterate_subset_of_le g S hle hvw)
      · have hwv : w ∈ (iterStep g)^[(f v hv2).1] S := haw ▸ hbv
        have hvw : v ∈ (iterStep g)^[(f w hw2).1] S := hav ▸ hbw
        rcases Nat.le_total (f v hv2).1 (f w hw2).1 with hle | hle
        · exact h3w (iterate_subset_of_le g S hle hwv)
        · exact h3v (iterate_subset_of_le g S hle hvw)
      · exact hne (hav.symm.trans haw)
  exact hcard.trans (List.toFinset_card_le g.edges)

theorem iterate_stab (g : Graph) (S : Finset String) (n : Nat) :
    (iterStep g)^[g.edges.length + n] S = (iterStep g)^[g.edges.length] S := by
  have hfix : ∃ k, k ≤ g.edges.length ∧
      (iterStep g)^[k + 1] S = (iterStep g)^[k] S := by
    by_contra hcon
    push_neg at hcon
    have hstrict : ∀ k, k ≤ g.edges.length + 1 →
        S.card + k ≤ ((iterStep g)^[k] S).card := by
      intro k
      induction k with
      | zero => intro _; simp
      | succ j ih =>
        intro hj
        have hss : (iterStep g)^[j] S ⊂ (iterStep g)^[j + 1] S :=
          HasSubset.Subset.ssubset_of_ne (iterate_subset_succ g S j)
            (Ne.symm (hcon j (by omega)))
        have hlt := Finset.card_lt_card hss
        have ihh := ih (by omega)
        omega
    have h1 := hstrict (g.edges.length + 1) le_rfl
    have h2 : ((iterStep g)^[g.edges.length + 1] S).card ≤
        ((iterStep g)^[g.edges.length + 1] S \ S).card + S.card :=
      Finset.card_le_card_sdiff_add_card
    have h3 := iterate_new_card_le g S (g.edges.length + 1)
    omega
  obtain ⟨k, hkE, hk⟩ := hfix
  have hprop : ∀ j, (iterStep g)^[k + j] S = (iterStep g)^[k] S := by
    intro j
    induction j with
    | zero => rfl
    | succ i ih =>
      show (iterStep g)^[(k + i) + 1] S = (iterStep g)^[k] S
      rw [Function.iterate_succ_apply', ih,
        ← Function.iterate_succ_apply' (iterStep g) k S]
      exact hk
  have e1 : g.edges.length + n = k + (g.edges.length - k + n) := by omega
  have e2 : g.edges.length = k + (g.edges.length - k) := by omega
  calc (iterStep g)^[g.edges.length + n] S
      = (iterStep g)^[k + (g.edges.length - k + n)] S := by rw [← e1]
    _ = (iterStep g)^[k] S := hprop _
    _ = (iterStep g)^[k + (g.edges.length - k)] S := (hprop _).symm
    _ = (iterStep g)^[g.edges.length] S := by rw [← e2]

/-! ## Claim C10 -/

/-- C10: `expandFromIds` returns exactly the ids connected to some seed by
a path of at most `d` edges traversed in either direction (seeds
included); with depth `Infinity` the source's cap of `edges.length`
iterations suffices, so the result is the full set of ids connected to
any seed. -/
theorem expandFromIds_reachability (g : Graph) (ids : List String) (d : Nat)
    (v : String) :
    (v ∈ expandFromIds g ids (some d) ↔ ∃ a ∈ ids, ReachLe g d a v)
    ∧ (v ∈ expandFromIds g ids none ↔ ∃ a ∈ ids, ∃ n, ReachLe g n a v) := by
  have hloop : ∀ depth : Option Nat, expandFromIds g ids depth =
      (iterStep g)^[depth.getD g.edges.length] ids.toFinset := by
    intro depth
    unfold expandFromIds
    apply expandLoop_eq
    · exact Finset.Subset.refl _
    · exact Finset.Subset.refl _
  constructor
  · rw [hloop (some d)]
    rw [show (some d).getD g.edges.length = d from rfl, mem_iterate_iff]
    simp only [List.mem_toFinset]
  · rw [hloop none]
    rw [show (none : Option Nat).getD g.edges.length = g.edges.length from rfl,
      mem_iterate_iff]
    constructor
    · rintro ⟨a, ha, hr⟩
      exact ⟨a, List.mem_toFinset.mp ha, g.edges.length, hr⟩
    · rintro ⟨a, ha, n, hr⟩
      have hv : v ∈ (iterStep g)^[n] ids.toFinset :=
        (mem_iterate_iff g ids.toFinset n v).mpr
          ⟨a, List.mem_toFinset.mpr ha, hr⟩
      by_cases hle : n ≤ g.edges.length
      · exact (mem_iterate_iff g ids.toFinset g.edges.length v).mp
          (iterate_subset_of_le g ids.toFinset hle hv)
      · rw [show n = g.edges.length + (n - g.edges.length) by omega,
          iterate_stab] at hv
        exact (mem_iterate_iff g ids.toFinset g.edges.length v).mp hv

end SintOlogy
